import Mathlib

/-!
Verification development for the privacy-loss-mechanism layer of a
differential-privacy accounting library
(python/dp_accounting/pld/privacy_loss_mechanism.py).

Floating point numbers of the source are modelled by real numbers `ℝ`;
points and privacy-loss values that may be `±inf` in the source are
modelled by extended reals `EReal` (with `⊥` for `-inf` and `⊤` for
`+inf`).  Fallible operations (those that may raise `ValueError`)
return `Option`, with `none` for the error outcome.
-/

open Real

/-- Adjacency relation tag: ADD means the neighbouring dataset has one more
datapoint, REMOVE one less.  Mirrors the `AdjacencyType` enum. -/
inductive AdjacencyType
  | ADD
  | REMOVE
deriving DecidableEq

/-- Exponential on extended reals with values in `ℝ≥0∞`:
`exp ⊥ = 0`, `exp ⊤ = ∞`, and the usual exponential on reals.
This is the value semantics of `numpy.exp` on floats including `±inf`. -/
noncomputable def eexpNN : EReal → ENNReal
  | ⊥ => 0
  | ⊤ => ⊤
  | (r : ℝ) => ENNReal.ofReal (Real.exp r)

/-- Logarithm from `ℝ≥0∞` to extended reals: `log 0 = ⊥`, `log ∞ = ⊤`.
This is the value semantics of `numpy.log` on nonnegative floats. -/
noncomputable def elogNN (y : ENNReal) : EReal :=
  if y = 0 then ⊥ else if y = ⊤ then ⊤ else ((Real.log y.toReal : ℝ) : EReal)

/-- `numpy.logaddexp a b = log (exp a + exp b)` on extended reals. -/
noncomputable def logaddexpE (a b : EReal) : EReal :=
  elogNN (eexpNN a + eexpNN b)

/-- Real-valued exponential of an extended real, with `exp ⊥ = 0`
(the `⊤` input never occurs in the places this is used, since log-CDF
values are nonpositive). -/
noncomputable def eexpE (x : EReal) : ℝ :=
  (eexpNN x).toReal

/-- `numpy.clip d 0 1` on an extended real, producing a real number. -/
noncomputable def clip01 (d : EReal) : ℝ :=
  (max 0 (min 1 d)).toReal

/-- `math.isclose a b` with the default tolerances
(`rel_tol = 1e-9`, `abs_tol = 0`). -/
def isclose (a b : ℝ) : Prop :=
  |a - b| ≤ 1e-9 * max |a| |b|

noncomputable instance : DecidablePred fun p : ℝ × ℝ => isclose p.1 p.2 :=
  fun _ => Real.decidableLE _ _

noncomputable instance (a b : ℝ) : Decidable (isclose a b) :=
  Real.decidableLE _ _

/-- Modelled from the spec: the external collaborator
`common.log_a_times_exp_b_plus_c` is specified as a numerically stable
evaluation of `log (a * exp b + c)` (for `a > 0`); we model its exact
mathematical value, extended to `b = ±inf` the way float arithmetic
behaves there, with nonpositive arguments of the logarithm sent to `⊥`. -/
noncomputable def logATimesExpBPlusC (a : ℝ) (b : EReal) (c : ℝ) : EReal :=
  match b with
  | ⊥ => if c ≤ 0 then ⊥ else ((Real.log c : ℝ) : EReal)
  | ⊤ => ⊤
  | (r : ℝ) =>
    if a * Real.exp r + c ≤ 0 then ⊥
    else ((Real.log (a * Real.exp r + c) : ℝ) : EReal)

/-- The data of an additive-noise privacy-loss mechanism instance:
the attributes set by `AdditiveNoisePrivacyLoss.__init__` together with
the four mechanism-specific primitives the abstract class relies on.
`privacy_loss_without_subsampling` returns `none` where the source
raises `ValueError`. -/
structure AdditiveNoisePrivacyLoss where
  sensitivity : ℝ
  sampling_prob : ℝ
  adjacency_type : AdjacencyType
  noise_cdf : EReal → ℝ
  noise_log_cdf : EReal → EReal
  privacy_loss_without_subsampling : ℝ → Option EReal
  inverse_privacy_loss_without_subsampling : EReal → EReal

namespace AdditiveNoisePrivacyLoss

/-- `AdditiveNoisePrivacyLoss.mu_upper_cdf`: CDF of the mu_upper
distribution, with the dedicated fast path for `sampling_prob = 1`. -/
noncomputable def muUpperCdf (M : AdditiveNoisePrivacyLoss) (x : EReal) : ℝ :=
  match M.adjacency_type with
  | .ADD => M.noise_cdf x
  | .REMOVE =>
    if M.sampling_prob = 1 then M.noise_cdf (x + (M.sensitivity : EReal))
    else (1 - M.sampling_prob) * M.noise_cdf x +
      M.sampling_prob * M.noise_cdf (x + (M.sensitivity : EReal))

/-- `AdditiveNoisePrivacyLoss.mu_lower_log_cdf`: log-CDF of the mu_lower
distribution; the ADD mixing branch uses `numpy.logaddexp`, with the
dedicated fast path for `sampling_prob = 1`.  `math.log1p (-q)` is
modelled by its value `log (1 - q)`. -/
noncomputable def muLowerLogCdf (M : AdditiveNoisePrivacyLoss) (x : EReal) : EReal :=
  match M.adjacency_type with
  | .ADD =>
    if M.sampling_prob = 1 then M.noise_log_cdf (x - (M.sensitivity : EReal))
    else logaddexpE
      (((Real.log (1 - M.sampling_prob) : ℝ) : EReal) + M.noise_log_cdf x)
      (((Real.log M.sampling_prob : ℝ) : EReal) +
        M.noise_log_cdf (x - (M.sensitivity : EReal)))
  | .REMOVE => M.noise_log_cdf x

/-- `AdditiveNoisePrivacyLoss.privacy_loss`: folds sub-sampling into the
mechanism primitive via the stable `log (a * exp b + c)` collaborator,
with the `sampling_prob = 1` bypass.  Errors of the primitive propagate. -/
noncomputable def privacyLoss (M : AdditiveNoisePrivacyLoss) (x : ℝ) : Option EReal :=
  (M.privacy_loss_without_subsampling x).map fun l =>
    if M.sampling_prob = 1 then l
    else
      match M.adjacency_type with
      | .ADD => -(logATimesExpBPlusC M.sampling_prob (-l) (1 - M.sampling_prob))
      | .REMOVE => logATimesExpBPlusC M.sampling_prob l (1 - M.sampling_prob)

/-- Total version of `privacyLoss` used by the tail computations of the
continuous mechanisms, whose loss primitive never raises (the default
value `0` is never exercised there). -/
noncomputable def privacyLossT (M : AdditiveNoisePrivacyLoss) (x : ℝ) : EReal :=
  (M.privacyLoss x).getD 0

/-- `AdditiveNoisePrivacyLoss.inverse_privacy_loss` on a (finite) float
input: boundary treatment by `math.isclose`, the strict-excess error
(`none`), the algebraic un-sampling through the stable collaborator, and
the `sampling_prob = 1` bypass. -/
noncomputable def inversePrivacyLoss (M : AdditiveNoisePrivacyLoss) (pl : ℝ) :
    Option EReal :=
  if M.sampling_prob = 1 then some (M.inverse_privacy_loss_without_subsampling pl)
  else
    match M.adjacency_type with
    | .ADD =>
      if isclose pl (-Real.log (1 - M.sampling_prob)) then
        some (M.inverse_privacy_loss_without_subsampling ⊤)
      else if pl > -Real.log (1 - M.sampling_prob) then none
      else some (M.inverse_privacy_loss_without_subsampling
        (-(logATimesExpBPlusC (1 / M.sampling_prob) ((-pl : ℝ) : EReal)
          (1 - 1 / M.sampling_prob))))
    | .REMOVE =>
      if isclose pl (Real.log (1 - M.sampling_prob)) then
        some (M.inverse_privacy_loss_without_subsampling ⊥)
      else if pl ≤ Real.log (1 - M.sampling_prob) then none
      else some (M.inverse_privacy_loss_without_subsampling
        (logATimesExpBPlusC (1 / M.sampling_prob) ((pl : ℝ) : EReal)
          (1 - 1 / M.sampling_prob)))

/-- The cutoff formula of `get_delta_for_epsilon`:
`clip (mu_upper_cdf x* - exp (eps + mu_lower_log_cdf x*)) 0 1` at
`x* = inverse_privacy_loss eps`. -/
noncomputable def deltaViaInverse (M : AdditiveNoisePrivacyLoss) (eps : ℝ) :
    Option ℝ :=
  (M.inversePrivacyLoss eps).map fun x =>
    clip01 ((M.muUpperCdf x : EReal) -
      ((eexpNN ((eps : EReal) + M.muLowerLogCdf x) : ENNReal) : EReal))

/-- `AdditiveNoisePrivacyLoss.get_delta_for_epsilon` for a single epsilon
(the source is vectorised over a list of epsilons; each entry is computed
independently exactly as here).  Values bypassing the cutoff formula are
also clipped into `[0, 1]` by the final `np.clip`. -/
noncomputable def getDeltaForEpsilon (M : AdditiveNoisePrivacyLoss) (eps : ℝ) :
    Option ℝ :=
  if M.sampling_prob = 1 then M.deltaViaInverse eps
  else
    match M.adjacency_type with
    | .ADD =>
      if eps < -Real.log (1 - M.sampling_prob) then M.deltaViaInverse eps
      else some (clip01 ((0 : ℝ) : EReal))
    | .REMOVE =>
      if eps > Real.log (1 - M.sampling_prob) then M.deltaViaInverse eps
      else some (clip01 ((1 - Real.exp eps : ℝ) : EReal))

end AdditiveNoisePrivacyLoss

/-- `TailPrivacyLossDistribution`: truncation points plus the residual
tail probability masses; the Python dict literal is modelled as the
association list of its (privacy-loss, mass) entries in source order. -/
structure TailPrivacyLossDistribution where
  lower_x_truncation : ℝ
  upper_x_truncation : ℝ
  tail_pmf : List (EReal × ℝ)

/-- Sum of the probability masses recorded in the tail. -/
def tailSum (t : TailPrivacyLossDistribution) : ℝ :=
  (t.tail_pmf.map Prod.snd).sum

/-! ### Laplace mechanism -/

/-- Modelled from the spec: the CDF of the centered Laplace distribution
with scale `b` (the external primitive `stats.laplace(scale=b).cdf`),
extended to `±inf` inputs with values 0 and 1. -/
noncomputable def laplaceNoiseCdf (b : ℝ) : EReal → ℝ
  | ⊥ => 0
  | ⊤ => 1
  | (x : ℝ) => if x < 0 then 0.5 * Real.exp (x / b) else 1 - 0.5 * Real.exp (-x / b)

/-- Modelled from the spec: log-CDF of the centered Laplace distribution
with scale `b` (the external primitive `stats.laplace(scale=b).logcdf`). -/
noncomputable def laplaceNoiseLogCdf (b : ℝ) : EReal → EReal
  | ⊥ => ⊥
  | ⊤ => 0
  | (x : ℝ) => ((Real.log (laplaceNoiseCdf b x) : ℝ) : EReal)

/-- `LaplacePrivacyLoss.privacy_loss_without_subsampling`: the clipped
linear ramp `(|x - s| - |x|) / b` (ADD) or `(|x| - |x + s|) / b`
(REMOVE); always defined. -/
noncomputable def laplacePlws (b s : ℝ) (adj : AdjacencyType) (x : ℝ) :
    Option EReal :=
  match adj with
  | .ADD => some (((|x - s| - |x|) / b : ℝ) : EReal)
  | .REMOVE => some (((|x| - |x + s|) / b : ℝ) : EReal)

/-- `LaplacePrivacyLoss.inverse_privacy_loss_without_subsampling`:
`loss_threshold = privacy_loss * b` is compared against `±s`; the
`±inf` input arms are the float values the source computes there for
`b > 0` (`inf * b = inf > s` and `-inf * b = -inf <= -s`). -/
noncomputable def laplaceInvWos (b s : ℝ) (adj : AdjacencyType) : EReal → EReal
  | ⊥ => ⊤
  | ⊤ => ⊥
  | (pl : ℝ) =>
    if pl * b > s then ⊥
    else if pl * b ≤ -s then ⊤
    else
      match adj with
      | .ADD => ((0.5 * (s - pl * b) : ℝ) : EReal)
      | .REMOVE => ((0.5 * (-s - pl * b) : ℝ) : EReal)

/-- The mechanism instance built by `LaplacePrivacyLoss.__init__` with
parameter `b`, sensitivity `s`, sub-sampling probability `q` and
adjacency type `adj`. -/
noncomputable def laplacePL (b s q : ℝ) (adj : AdjacencyType) :
    AdditiveNoisePrivacyLoss where
  sensitivity := s
  sampling_prob := q
  adjacency_type := adj
  noise_cdf := laplaceNoiseCdf b
  noise_log_cdf := laplaceNoiseLogCdf b
  privacy_loss_without_subsampling := laplacePlws b s adj
  inverse_privacy_loss_without_subsampling := laplaceInvWos b s adj

/-- `LaplacePrivacyLoss.privacy_loss_tail`: truncation at the `[0, s]`
(ADD) or `[-s, 0]` (REMOVE) boundary, with tail masses from
`mu_upper_cdf`. -/
noncomputable def laplaceTail (b s q : ℝ) (adj : AdjacencyType) :
    TailPrivacyLossDistribution :=
  let M := laplacePL b s q adj
  let l : ℝ := match adj with | .ADD => 0 | .REMOVE => -s
  let u : ℝ := match adj with | .ADD => s | .REMOVE => 0
  { lower_x_truncation := l
    upper_x_truncation := u
    tail_pmf := [(M.privacyLossT l, M.muUpperCdf (l : EReal)),
                 (M.privacyLossT u, 1 - M.muUpperCdf (u : EReal))] }

/-! ### Gaussian mechanism -/

/-- CDF of the standard normal distribution, defined from the Gaussian
probability measure (the external primitive `stats.norm.cdf`). -/
noncomputable def stdNormalCdf (x : ℝ) : ℝ :=
  ((ProbabilityTheory.gaussianReal 0 1) (Set.Iic x)).toReal

/-- Quantile of the standard normal distribution (`stats.norm.ppf`),
as the generalized inverse of `stdNormalCdf`. -/
noncomputable def stdNormalPpf (p : ℝ) : ℝ :=
  sInf {x : ℝ | p ≤ stdNormalCdf x}

/-- Modelled from the spec: `stats.norm(scale=sigma).cdf`, extended to
`±inf` inputs with values 0 and 1. -/
noncomputable def gaussNoiseCdf (sigma : ℝ) : EReal → ℝ
  | ⊥ => 0
  | ⊤ => 1
  | (x : ℝ) => stdNormalCdf (x / sigma)

/-- Modelled from the spec: `stats.norm(scale=sigma).logcdf`. -/
noncomputable def gaussNoiseLogCdf (sigma : ℝ) : EReal → EReal
  | ⊥ => ⊥
  | ⊤ => 0
  | (x : ℝ) => ((Real.log (stdNormalCdf (x / sigma)) : ℝ) : EReal)

/-- `GaussianPrivacyLoss.privacy_loss_without_subsampling`: the affine
ramp `s * (0.5 * s - x) / sigma^2` (ADD) or `s * (-0.5 * s - x) / sigma^2`
(REMOVE); always defined. -/
noncomputable def gaussPlws (sigma s : ℝ) (adj : AdjacencyType) (x : ℝ) :
    Option EReal :=
  match adj with
  | .ADD => some ((s * (0.5 * s - x) / sigma ^ 2 : ℝ) : EReal)
  | .REMOVE => some ((s * (-0.5 * s - x) / sigma ^ 2 : ℝ) : EReal)

/-- `GaussianPrivacyLoss.inverse_privacy_loss_without_subsampling`: the
affine solve; the `±inf` input arms are the float values the affine
formula takes there for `sigma, s > 0`. -/
noncomputable def gaussInvWos (sigma s : ℝ) (adj : AdjacencyType) : EReal → EReal
  | ⊥ => ⊤
  | ⊤ => ⊥
  | (pl : ℝ) =>
    match adj with
    | .ADD => ((0.5 * s - pl * sigma ^ 2 / s : ℝ) : EReal)
    | .REMOVE => ((-(0.5 * s) - pl * sigma ^ 2 / s : ℝ) : EReal)

/-- The mechanism instance built by `GaussianPrivacyLoss.__init__` with
parameter `sigma`, sensitivity `s`, sub-sampling probability `q` and
adjacency type `adj` (the `pessimistic_estimate` and
`log_mass_truncation_bound` attributes only enter `privacy_loss_tail`,
which takes them as arguments below). -/
noncomputable def gaussianPL (sigma s q : ℝ) (adj : AdjacencyType) :
    AdditiveNoisePrivacyLoss where
  sensitivity := s
  sampling_prob := q
  adjacency_type := adj
  noise_cdf := gaussNoiseCdf sigma
  noise_log_cdf := gaussNoiseLogCdf sigma
  privacy_loss_without_subsampling := gaussPlws sigma s adj
  inverse_privacy_loss_without_subsampling := gaussInvWos sigma s adj

/-- `GaussianPrivacyLoss.privacy_loss_tail`: symmetric quantile
truncation at mass `0.5 * exp log_mass_truncation_bound`, shifted by the
sensitivity on the side dictated by the adjacency type, with pessimistic
or optimistic placement of the outside-bound mass. -/
noncomputable def gaussianTail (sigma s q bound : ℝ) (pess : Bool)
    (adj : AdjacencyType) : TailPrivacyLossDistribution :=
  let M := gaussianPL sigma s q adj
  let l0 : ℝ := sigma * stdNormalPpf (0.5 * Real.exp bound)
  let l : ℝ := match adj with | .ADD => l0 | .REMOVE => l0 - s
  let u : ℝ := match adj with | .ADD => -l0 + s | .REMOVE => -l0
  { lower_x_truncation := l
    upper_x_truncation := u
    tail_pmf :=
      if pess then
        [(⊤, M.muUpperCdf (l : EReal)), (M.privacyLossT u, 1 - M.muUpperCdf (u : EReal))]
      else
        [(M.privacyLossT l, M.muUpperCdf (l : EReal))] }

/-! ### Discrete Laplace mechanism -/

/-- The evaluation point is an integer (the source checks
`isinstance(x, int)` before evaluating a discrete loss). -/
def isIntR (x : ℝ) : Prop :=
  ∃ n : ℤ, x = (n : ℝ)

noncomputable instance (x : ℝ) : Decidable (isIntR x) :=
  Classical.propDecidable _

/-- Modelled from the spec: the CDF of the discrete Laplace distribution
with parameter `a` (the external primitive `stats.dlaplace(a).cdf`);
PMF `Z * exp (-a * |k|)` with `Z = (exp a - 1) / (exp a + 1)`. -/
noncomputable def dlapNoiseCdf (a : ℝ) : EReal → ℝ
  | ⊥ => 0
  | ⊤ => 1
  | (x : ℝ) =>
    if x < 0 then
      (Real.exp a - 1) / (Real.exp a + 1) * Real.exp (a * (⌊x⌋ : ℝ)) /
        (1 - Real.exp (-a))
    else
      1 - (Real.exp a - 1) / (Real.exp a + 1) * Real.exp (-a * ((⌊x⌋ : ℝ) + 1)) /
        (1 - Real.exp (-a))

/-- Modelled from the spec: log-CDF of the discrete Laplace distribution
(the external primitive `stats.dlaplace(a).logcdf`). -/
noncomputable def dlapNoiseLogCdf (a : ℝ) : EReal → EReal
  | ⊥ => ⊥
  | ⊤ => 0
  | (x : ℝ) => ((Real.log (dlapNoiseCdf a x) : ℝ) : EReal)

/-- `DiscreteLaplacePrivacyLoss.privacy_loss_without_subsampling`:
raises (`none`) at non-integer points, otherwise the ramp
`(|x - s| - |x|) * a` (ADD) or `(|x| - |x + s|) * a` (REMOVE). -/
noncomputable def dlapPlws (a : ℝ) (s : ℤ) (adj : AdjacencyType) (x : ℝ) :
    Option EReal :=
  if isIntR x then
    match adj with
    | .ADD => some (((|x - (s : ℝ)| - |x|) * a : ℝ) : EReal)
    | .REMOVE => some (((|x| - |x + (s : ℝ)|) * a : ℝ) : EReal)
  else none

/-- `DiscreteLaplacePrivacyLoss.inverse_privacy_loss_without_subsampling`:
like the continuous Laplace inverse with `loss_threshold = privacy_loss / a`
and a floor applied; the `±inf` arms are the float values the source
computes there for `a > 0`. -/
noncomputable def dlapInvWos (a : ℝ) (s : ℤ) (adj : AdjacencyType) : EReal → EReal
  | ⊥ => ⊤
  | ⊤ => ⊥
  | (pl : ℝ) =>
    if pl / a > (s : ℝ) then ⊥
    else if pl / a ≤ -(s : ℝ) then ⊤
    else
      match adj with
      | .ADD => (((⌊0.5 * ((s : ℝ) - pl / a)⌋ : ℤ) : ℝ) : EReal)
      | .REMOVE => (((⌊0.5 * (-(s : ℝ) - pl / a)⌋ : ℤ) : ℝ) : EReal)

/-- The mechanism instance built by `DiscreteLaplacePrivacyLoss.__init__`
with parameter `a`, integer sensitivity `s`, sub-sampling probability `q`
and adjacency type `adj`. -/
noncomputable def dlapPL (a : ℝ) (s : ℤ) (q : ℝ) (adj : AdjacencyType) :
    AdditiveNoisePrivacyLoss where
  sensitivity := (s : ℝ)
  sampling_prob := q
  adjacency_type := adj
  noise_cdf := dlapNoiseCdf a
  noise_log_cdf := dlapNoiseLogCdf a
  privacy_loss_without_subsampling := dlapPlws a s adj
  inverse_privacy_loss_without_subsampling := dlapInvWos a s adj

/-- `DiscreteLaplacePrivacyLoss.privacy_loss_tail`: truncation excluding
the unit boundary offsets, with tail masses from `mu_upper_cdf`. -/
noncomputable def dlapTail (a : ℝ) (s : ℤ) (q : ℝ) (adj : AdjacencyType) :
    TailPrivacyLossDistribution :=
  let M := dlapPL a s q adj
  let l : ℤ := match adj with | .ADD => 1 | .REMOVE => 1 - s
  let u : ℤ := match adj with | .ADD => s - 1 | .REMOVE => -1
  { lower_x_truncation := (l : ℝ)
    upper_x_truncation := (u : ℝ)
    tail_pmf := [(M.privacyLossT ((l : ℝ) - 1), M.muUpperCdf (((l : ℝ) - 1 : ℝ) : EReal)),
                 (M.privacyLossT ((u : ℝ) + 1), 1 - M.muUpperCdf (((u : ℝ) : ℝ) : EReal))] }

/-! ### Discrete Gaussian mechanism -/

/-- `DiscreteGaussianPrivacyLoss.__init__`: the truncation bound, set to
`ceil (11.6 * sigma)` when unspecified. -/
noncomputable def dgTruncationBound (sigma : ℝ) (tb : Option ℤ) : ℤ :=
  tb.getD ⌈11.6 * sigma⌉

/-- `numpy.ufunc.accumulate` tail: running combination of a list with a
carried accumulator. -/
def accumFrom {α : Type} (f : α → α → α) (acc : α) : List α → List α
  | [] => []
  | b :: l => f acc b :: accumFrom f (f acc b) l

/-- `numpy.ufunc.accumulate`: the list of running combinations (the first
entry is kept as is). -/
def npAccumulate {α : Type} (f : α → α → α) : List α → List α
  | [] => []
  | a :: l => a :: accumFrom f a l

/-- The un-normalized log-PMF array of `DiscreteGaussianPrivacyLoss`:
a `-inf` sentinel followed by `-0.5 * k^2 / sigma^2` for
`k = -B, ..., B`. -/
noncomputable def dgLogPmfRaw (sigma : ℝ) (B : ℤ) : List EReal :=
  ⊥ :: (List.range (2 * B + 1).toNat).map
    (fun (i : ℕ) => ((-0.5 * (((i : ℤ) - B : ℤ) : ℝ) ^ 2 / sigma ^ 2 : ℝ) : EReal))

/-- The un-normalized log-CDF array: `np.logaddexp.accumulate` of the
un-normalized log-PMF array. -/
noncomputable def dgLogCdfRaw (sigma : ℝ) (B : ℤ) : List EReal :=
  npAccumulate logaddexpE (dgLogPmfRaw sigma B)

/-- The normalized log-CDF array: the last entry of the un-normalized
log-CDF array is subtracted throughout. -/
noncomputable def dgLogCdf (sigma : ℝ) (B : ℤ) : List EReal :=
  (dgLogCdfRaw sigma B).map (· - (dgLogCdfRaw sigma B).getLastD 0)

/-- The normalized log-PMF array. -/
noncomputable def dgLogPmf (sigma : ℝ) (B : ℤ) : List EReal :=
  (dgLogPmfRaw sigma B).map (· - (dgLogCdfRaw sigma B).getLastD 0)

/-- The linear-scale CDF array: exponential of the normalized log-CDF
array. -/
noncomputable def dgCdf (sigma : ℝ) (B : ℤ) : List ℝ :=
  (dgLogCdf sigma B).map eexpE

/-- Array index corresponding to a lookup point:
`floor (clip x (-B - 1) B) - offset` with `offset = -B - 1`, the `±inf`
arms being the two extreme indices that the clipping produces there. -/
noncomputable def dgIndex (B : ℤ) : EReal → ℕ
  | ⊥ => 0
  | ⊤ => (2 * B + 1).toNat
  | (x : ℝ) => (⌊min (max x (-(B : ℝ) - 1)) (B : ℝ)⌋ + B + 1).toNat

/-- `DiscreteGaussianPrivacyLoss.noise_cdf`: array lookup with clipping. -/
noncomputable def dgNoiseCdf (sigma : ℝ) (B : ℤ) (x : EReal) : ℝ :=
  (dgCdf sigma B).getD (dgIndex B x) 0

/-- `DiscreteGaussianPrivacyLoss.noise_log_cdf`: array lookup with
clipping. -/
noncomputable def dgNoiseLogCdf (sigma : ℝ) (B : ℤ) (x : EReal) : EReal :=
  (dgLogCdf sigma B).getD (dgIndex B x) ⊥

/-- `DiscreteGaussianPrivacyLoss.privacy_loss_without_subsampling` in its
ADD form (the REMOVE form evaluates it at `x + s`): `none` at non-integer
or out-of-range points, `-inf` above `B`, `+inf` below `s - B`, and the
affine ramp in between. -/
noncomputable def dgPlwsAdd (sigma : ℝ) (B s : ℤ) (x : ℝ) : Option EReal :=
  if ¬ isIntR x ∨ x < -(B : ℝ) ∨ x > (B : ℝ) + (s : ℝ) then none
  else if x > (B : ℝ) then some ⊥
  else if x < (s : ℝ) - (B : ℝ) then some ⊤
  else some (((s : ℝ) * (0.5 * (s : ℝ) - x) / sigma ^ 2 : ℝ) : EReal)

/-- `DiscreteGaussianPrivacyLoss.privacy_loss_without_subsampling`. -/
noncomputable def dgPlws (sigma : ℝ) (B s : ℤ) (adj : AdjacencyType) (x : ℝ) :
    Option EReal :=
  match adj with
  | .ADD => dgPlwsAdd sigma B s x
  | .REMOVE => dgPlwsAdd sigma B s (x + (s : ℝ))

/-- The ADD form of
`DiscreteGaussianPrivacyLoss.inverse_privacy_loss_without_subsampling`:
floor of the affine solve clipped into `[s - B - 1, B]`, with `B` at a
`-inf` input; the `+inf` arm is the value `np.clip` and `floor` produce
there. -/
noncomputable def dgInvWosAdd (sigma : ℝ) (B s : ℤ) : EReal → EReal
  | ⊥ => ((B : ℝ) : EReal)
  | ⊤ => (((s - B - 1 : ℤ) : ℝ) : EReal)
  | (pl : ℝ) =>
    (((⌊min (max (0.5 * (s : ℝ) - pl * sigma ^ 2 / (s : ℝ))
      ((s : ℝ) - (B : ℝ) - 1)) (B : ℝ)⌋ : ℤ) : ℝ) : EReal)

/-- `DiscreteGaussianPrivacyLoss.inverse_privacy_loss_without_subsampling`:
the REMOVE form is the ADD form decreased by the sensitivity. -/
noncomputable def dgInvWos (sigma : ℝ) (B s : ℤ) (adj : AdjacencyType)
    (pl : EReal) : EReal :=
  match adj with
  | .ADD => dgInvWosAdd sigma B s pl
  | .REMOVE => dgInvWosAdd sigma B s pl - ((s : ℝ) : EReal)

/-- The mechanism instance built by `DiscreteGaussianPrivacyLoss.__init__`
with parameter `sigma`, truncation bound `B`, integer sensitivity `s`,
sub-sampling probability `q` and adjacency type `adj`. -/
noncomputable def dgPL (sigma : ℝ) (B s : ℤ) (q : ℝ) (adj : AdjacencyType) :
    AdditiveNoisePrivacyLoss where
  sensitivity := (s : ℝ)
  sampling_prob := q
  adjacency_type := adj
  noise_cdf := dgNoiseCdf sigma B
  noise_log_cdf := dgNoiseLogCdf sigma B
  privacy_loss_without_subsampling := dgPlws sigma B s adj
  inverse_privacy_loss_without_subsampling := dgInvWos sigma B s adj

/-- `DiscreteGaussianPrivacyLoss.privacy_loss_tail`: a single entry
collapsing all mass below the lower truncation to `+inf` loss. -/
noncomputable def dgTail (sigma : ℝ) (B s : ℤ) (q : ℝ) (adj : AdjacencyType) :
    TailPrivacyLossDistribution :=
  let M := dgPL sigma B s q adj
  let l : ℤ := match adj with
    | .ADD => if q = 1 then s - B else -B
    | .REMOVE => -B
  let u : ℤ := match adj with
    | .ADD => B
    | .REMOVE => if q = 1 then B - s else B
  { lower_x_truncation := (l : ℝ)
    upper_x_truncation := (u : ℝ)
    tail_pmf := [(⊤, M.muUpperCdf ((((l : ℝ) - 1 : ℝ)) : EReal))] }

/-! ### Basic lemmas about the helpers -/

@[simp] lemma eexpNN_bot : eexpNN ⊥ = 0 := rfl

@[simp] lemma eexpNN_top : eexpNN ⊤ = ⊤ := rfl

@[simp] lemma eexpNN_coe (r : ℝ) : eexpNN ((r : ℝ) : EReal) = ENNReal.ofReal (Real.exp r) := rfl

@[simp] lemma laplaceInvWos_coe (b s : ℝ) (adj : AdjacencyType) (pl : ℝ) :
    laplaceInvWos b s adj ((pl : ℝ) : EReal) =
      if pl * b > s then ⊥
      else if pl * b ≤ -s then ⊤
      else
        match adj with
        | .ADD => ((0.5 * (s - pl * b) : ℝ) : EReal)
        | .REMOVE => ((0.5 * (-s - pl * b) : ℝ) : EReal) := rfl

lemma clip01_coe {v : ℝ} (h0 : 0 ≤ v) (h1 : v ≤ 1) : clip01 ((v : ℝ) : EReal) = v := by
  unfold clip01
  rw [show (1 : EReal) = ((1 : ℝ) : EReal) from rfl,
    show (0 : EReal) = ((0 : ℝ) : EReal) from rfl,
    min_eq_right (by exact_mod_cast h1), max_eq_right (by exact_mod_cast h0),
    EReal.toReal_coe]

lemma isclose_self (a : ℝ) : isclose a a := by
  unfold isclose
  simp only [sub_self, abs_zero, max_self]
  positivity

/-- C10: the Laplace mechanism inverse without sub-sampling treats the lower
saturation boundary inclusively and the upper one exclusively: at privacy
loss exactly `-s/b` it returns `+inf`; at exactly `s/b` it returns the
finite closed-form solution (`0` under ADD, `-s` under REMOVE); and it
returns `-inf` precisely for privacy losses strictly above `s/b`. -/
theorem C10_laplace_inverse_boundaries (b s : ℝ) (adj : AdjacencyType)
    (hb : 0 < b) (hs : 0 < s) :
    laplaceInvWos b s adj ((-(s / b) : ℝ) : EReal) = ⊤ ∧
    laplaceInvWos b s .ADD ((s / b : ℝ) : EReal) = ((0 : ℝ) : EReal) ∧
    laplaceInvWos b s .REMOVE ((s / b : ℝ) : EReal) = ((-s : ℝ) : EReal) ∧
    (∀ pl : ℝ, laplaceInvWos b s adj ((pl : ℝ) : EReal) = ⊥ ↔ s / b < pl) := by
  have hb' : b ≠ 0 := ne_of_gt hb
  have hlo : -(s / b) * b = -s := by field_simp
  have hhi : s / b * b = s := by field_simp
  refine ⟨?_, ?_, ?_, ?_⟩
  · rw [laplaceInvWos_coe, hlo, if_neg (by linarith), if_pos le_rfl]
  · rw [laplaceInvWos_coe, hhi, if_neg (lt_irrefl s), if_neg (by linarith)]
    rw [show (0.5 * (s - s) : ℝ) = 0 by ring]
  · rw [laplaceInvWos_coe, hhi, if_neg (lt_irrefl s), if_neg (by linarith)]
    rw [show (0.5 * (-s - s) : ℝ) = -s by ring]
  · intro pl
    rw [laplaceInvWos_coe]
    constructor
    · intro h
      by_contra hcon
      push_neg at hcon
      have hple : pl * b ≤ s := by
        calc pl * b ≤ s / b * b := by
              exact mul_le_mul_of_nonneg_right hcon hb.le
          _ = s := hhi
      rw [if_neg (not_lt.mpr hple)] at h
      by_cases h2 : pl * b ≤ -s
      · rw [if_pos h2] at h
        exact (by simp : (⊤ : EReal) ≠ ⊥) h
      · rw [if_neg h2] at h
        cases adj
        · exact EReal.coe_ne_bot _ h
        · exact EReal.coe_ne_bot _ h
    · intro h
      have : s < pl * b := by
        calc s = s / b * b := hhi.symm
          _ < pl * b := by exact mul_lt_mul_of_pos_right h hb
      rw [if_pos this]

/-- C10 witness: the boundary behaviour at the concrete instance
`b = 1`, `s = 1`, ADD adjacency. -/
theorem C10_witness :
    (0 : ℝ) < 1 ∧
      laplaceInvWos 1 1 .ADD ((-(1 / 1) : ℝ) : EReal) = ⊤ ∧
      laplaceInvWos 1 1 .ADD ((1 / 1 : ℝ) : EReal) = ((0 : ℝ) : EReal) ∧
      (laplaceInvWos 1 1 .ADD ((2 : ℝ) : EReal) = ⊥ ↔ (1 : ℝ) / 1 < 2) := by
  have h := C10_laplace_inverse_boundaries 1 1 .ADD one_pos one_pos
  exact ⟨one_pos, h.1, h.2.1, h.2.2.2 2⟩

/-- C2 counterexample: for the Laplace mechanism with `b = 1`, `s = 1`,
REMOVE adjacency and `q = 1`, the privacy loss at `0` is `-1`, not `1` as
claimed (`(|0| - |0 + 1|) / 1 = -1`). -/
theorem C2_counterexample :
    (laplacePL 1 1 1 .REMOVE).privacyLoss 0 = some ((-1 : ℝ) : EReal) ∧
    ((-1 : ℝ) : EReal) ≠ ((1 : ℝ) : EReal) := by
  constructor
  · simp only [AdditiveNoisePrivacyLoss.privacyLoss, laplacePL, laplacePlws,
      Option.map_some', if_pos rfl, Option.some.injEq]
    norm_num
  · intro h
    rw [EReal.coe_eq_coe_iff] at h
    norm_num at h

/-- C2 (amended): for the Laplace mechanism with `b = 1`, `s = 1` and
`q = 1`, it is the ADD-adjacency instance whose privacy loss satisfies
`privacy_loss 0 = 1` and `privacy_loss 10 = -1` (the clipped linear ramp
saturating at `±s/b`); under REMOVE adjacency both values are `-1`. -/
theorem C2_laplace_concrete_losses :
    (laplacePL 1 1 1 .ADD).privacyLoss 0 = some ((1 : ℝ) : EReal) ∧
    (laplacePL 1 1 1 .ADD).privacyLoss 10 = some ((-1 : ℝ) : EReal) ∧
    (laplacePL 1 1 1 .REMOVE).privacyLoss 0 = some ((-1 : ℝ) : EReal) ∧
    (laplacePL 1 1 1 .REMOVE).privacyLoss 10 = some ((-1 : ℝ) : EReal) := by
  refine ⟨?_, ?_, ?_, ?_⟩ <;>
    · simp only [AdditiveNoisePrivacyLoss.privacyLoss, laplacePL, laplacePlws,
        Option.map_some', if_pos rfl, Option.some.injEq]
      norm_num

@[simp] lemma logATimesExpBPlusC_coe (a c r : ℝ) :
    logATimesExpBPlusC a ((r : ℝ) : EReal) c =
      if a * Real.exp r + c ≤ 0 then ⊥
      else ((Real.log (a * Real.exp r + c) : ℝ) : EReal) := rfl

/-- C4: `privacy_loss` returns the un-subsampled loss directly when
`q = 1`, and otherwise folds sub-sampling in as `-log (q exp (-L) + (1-q))`
under ADD and `log (q exp L + (1-q))` under REMOVE, where `L` is the value
of `privacy_loss_without_subsampling` (evaluated through the stable
`log (a exp b + c)` collaborator). -/
theorem C4_privacy_loss_subsampling (M : AdditiveNoisePrivacyLoss) (x L : ℝ)
    (hq0 : 0 < M.sampling_prob)
    (h : M.privacy_loss_without_subsampling x = some ((L : ℝ) : EReal)) :
    (M.sampling_prob = 1 → M.privacyLoss x = some ((L : ℝ) : EReal)) ∧
    (M.sampling_prob < 1 → M.adjacency_type = .ADD →
      M.privacyLoss x = some
        ((-Real.log (M.sampling_prob * Real.exp (-L) + (1 - M.sampling_prob)) : ℝ) : EReal)) ∧
    (M.sampling_prob < 1 → M.adjacency_type = .REMOVE →
      M.privacyLoss x = some
        ((Real.log (M.sampling_prob * Real.exp L + (1 - M.sampling_prob)) : ℝ) : EReal)) := by
  refine ⟨?_, ?_, ?_⟩
  · intro hq
    rw [AdditiveNoisePrivacyLoss.privacyLoss, h, Option.map_some', if_pos hq]
  · intro hq1 hadj
    have hpos : 0 < M.sampling_prob * Real.exp (-L) + (1 - M.sampling_prob) := by
      have := Real.exp_pos (-L)
      nlinarith
    rw [AdditiveNoisePrivacyLoss.privacyLoss, h, Option.map_some',
      if_neg (ne_of_lt hq1), hadj]
    simp only [← EReal.coe_neg, logATimesExpBPlusC_coe, if_neg (not_le.mpr hpos)]
  · intro hq1 hadj
    have hpos : 0 < M.sampling_prob * Real.exp L + (1 - M.sampling_prob) := by
      have := Real.exp_pos L
      nlinarith
    rw [AdditiveNoisePrivacyLoss.privacyLoss, h, Option.map_some',
      if_neg (ne_of_lt hq1), hadj]
    simp only [logATimesExpBPlusC_coe, if_neg (not_le.mpr hpos)]

/-- C4 witness: Laplace with `b = 1`, `s = 1`, `q = 1/2`, ADD adjacency,
evaluated at `x = 0` (where the un-subsampled loss is `1`). -/
theorem C4_witness :
    (0 : ℝ) < 1 / 2 ∧
    (laplacePL 1 1 (1 / 2) .ADD).privacyLoss 0 = some
      ((-Real.log ((1 / 2) * Real.exp (-1) + (1 - 1 / 2)) : ℝ) : EReal) := by
  have h : (laplacePL 1 1 (1 / 2) .ADD).privacy_loss_without_subsampling 0 =
      some ((1 : ℝ) : EReal) := by
    have h1 : ((|(0 : ℝ) - 1| - |(0 : ℝ)|) / 1 : ℝ) = 1 := by norm_num
    simp only [laplacePL, laplacePlws, h1]
  refine ⟨by norm_num, ?_⟩
  exact (C4_privacy_loss_subsampling (laplacePL 1 1 (1 / 2) .ADD) 0 1
    (by norm_num : (0 : ℝ) < 1 / 2) h).2.1 (by norm_num : (1 / 2 : ℝ) < 1) rfl

/-- C7: `mu_upper_cdf` is `noise_cdf x` under ADD and the
`(1-q), q` mixture of `noise_cdf x` and `noise_cdf (x + s)` under REMOVE
(computed via the simplified path `noise_cdf (x + s)` when `q = 1`);
dually `mu_lower_log_cdf` is `noise_log_cdf x` under REMOVE, and under ADD
combines `log (1-q) + noise_log_cdf x` with `log q + noise_log_cdf (x - s)`
by log-sum-exp (with the simplified path `noise_log_cdf (x - s)` when
`q = 1`). -/
theorem C7_mu_upper_lower_cdfs (M : AdditiveNoisePrivacyLoss) (x : EReal) :
    (M.adjacency_type = .ADD → M.muUpperCdf x = M.noise_cdf x) ∧
    (M.adjacency_type = .REMOVE →
      M.muUpperCdf x = (1 - M.sampling_prob) * M.noise_cdf x +
        M.sampling_prob * M.noise_cdf (x + (M.sensitivity : EReal))) ∧
    (M.adjacency_type = .REMOVE → M.sampling_prob = 1 →
      M.muUpperCdf x = M.noise_cdf (x + (M.sensitivity : EReal))) ∧
    (M.adjacency_type = .REMOVE → M.muLowerLogCdf x = M.noise_log_cdf x) ∧
    (M.adjacency_type = .ADD → M.sampling_prob = 1 →
      M.muLowerLogCdf x = M.noise_log_cdf (x - (M.sensitivity : EReal))) ∧
    (M.adjacency_type = .ADD → M.sampling_prob ≠ 1 →
      M.muLowerLogCdf x = logaddexpE
        (((Real.log (1 - M.sampling_prob) : ℝ) : EReal) + M.noise_log_cdf x)
        (((Real.log M.sampling_prob : ℝ) : EReal) +
          M.noise_log_cdf (x - (M.sensitivity : EReal)))) := by
  refine ⟨?_, ?_, ?_, ?_, ?_, ?_⟩
  · intro h
    simp only [AdditiveNoisePrivacyLoss.muUpperCdf, h]
  · intro h
    simp only [AdditiveNoisePrivacyLoss.muUpperCdf, h]
    by_cases hq : M.sampling_prob = 1
    · rw [if_pos hq, hq]
      ring
    · rw [if_neg hq]
  · intro h hq
    simp only [AdditiveNoisePrivacyLoss.muUpperCdf, h, if_pos hq]
  · intro h
    simp only [AdditiveNoisePrivacyLoss.muLowerLogCdf, h]
  · intro h hq
    simp only [AdditiveNoisePrivacyLoss.muLowerLogCdf, h, if_pos hq]
  · intro h hq
    simp only [AdditiveNoisePrivacyLoss.muLowerLogCdf, h, if_neg hq]

/-- C7 witness: the REMOVE mixture and the ADD log-sum-exp mixture at the
concrete Laplace instance with `q = 1/2`, evaluated at `x = 0`. -/
theorem C7_witness :
    (laplacePL 1 1 (1 / 2) .REMOVE).muUpperCdf 0 =
      (1 - (1 / 2 : ℝ)) * laplaceNoiseCdf 1 0 +
        (1 / 2 : ℝ) * laplaceNoiseCdf 1 (0 + ((1 : ℝ) : EReal)) ∧
    (laplacePL 1 1 1 .ADD).muLowerLogCdf 0 =
      laplaceNoiseLogCdf 1 (0 - ((1 : ℝ) : EReal)) := by
  exact ⟨(C7_mu_upper_lower_cdfs (laplacePL 1 1 (1 / 2) .REMOVE) 0).2.1 rfl,
    (C7_mu_upper_lower_cdfs (laplacePL 1 1 1 .ADD) 0).2.2.2.2.1 rfl rfl⟩

/-- C3: `inverse_privacy_loss` with `q < 1` maps a loss within floating
tolerance of the boundary (`-log(1-q)` for ADD, `log(1-q)` for REMOVE) to
the mechanism inverse at `+inf` resp. `-inf`, raises (`none`) on a strict
non-close excess beyond the boundary, and otherwise delegates to the
mechanism inverse at the algebraically un-sampled loss
`∓log (1 + (exp (∓L) - 1) / q)`; `q = 1` bypasses all of this. -/
theorem C3_inverse_privacy_loss_policy (M : AdditiveNoisePrivacyLoss) (L : ℝ)
    (hq0 : 0 < M.sampling_prob) :
    (M.sampling_prob = 1 → M.inversePrivacyLoss L =
      some (M.inverse_privacy_loss_without_subsampling ((L : ℝ) : EReal))) ∧
    (M.sampling_prob < 1 → M.adjacency_type = .ADD →
      isclose L (-Real.log (1 - M.sampling_prob)) →
      M.inversePrivacyLoss L = some (M.inverse_privacy_loss_without_subsampling ⊤)) ∧
    (M.sampling_prob < 1 → M.adjacency_type = .ADD →
      ¬ isclose L (-Real.log (1 - M.sampling_prob)) →
      L > -Real.log (1 - M.sampling_prob) →
      M.inversePrivacyLoss L = none) ∧
    (M.sampling_prob < 1 → M.adjacency_type = .ADD →
      ¬ isclose L (-Real.log (1 - M.sampling_prob)) →
      L < -Real.log (1 - M.sampling_prob) →
      M.inversePrivacyLoss L = some (M.inverse_privacy_loss_without_subsampling
        ((-Real.log (1 + (Real.exp (-L) - 1) / M.sampling_prob) : ℝ) : EReal))) ∧
    (M.sampling_prob < 1 → M.adjacency_type = .REMOVE →
      isclose L (Real.log (1 - M.sampling_prob)) →
      M.inversePrivacyLoss L = some (M.inverse_privacy_loss_without_subsampling ⊥)) ∧
    (M.sampling_prob < 1 → M.adjacency_type = .REMOVE →
      ¬ isclose L (Real.log (1 - M.sampling_prob)) →
      L < Real.log (1 - M.sampling_prob) →
      M.inversePrivacyLoss L = none) ∧
    (M.sampling_prob < 1 → M.adjacency_type = .REMOVE →
      ¬ isclose L (Real.log (1 - M.sampling_prob)) →
      L > Real.log (1 - M.sampling_prob) →
      M.inversePrivacyLoss L = some (M.inverse_privacy_loss_without_subsampling
        ((Real.log (1 + (Real.exp L - 1) / M.sampling_prob) : ℝ) : EReal))) := by
  refine ⟨?_, ?_, ?_, ?_, ?_, ?_, ?_⟩
  · intro hq
    rw [AdditiveNoisePrivacyLoss.inversePrivacyLoss, if_pos hq]
  · intro hq1 hadj hclose
    rw [AdditiveNoisePrivacyLoss.inversePrivacyLoss, if_neg (ne_of_lt hq1), hadj]
    rw [if_pos hclose]
  · intro hq1 hadj hclose hgt
    rw [AdditiveNoisePrivacyLoss.inversePrivacyLoss, if_neg (ne_of_lt hq1), hadj]
    rw [if_neg hclose, if_pos hgt]
  · intro hq1 hadj hclose hlt
    have h1q : (0 : ℝ) < 1 - M.sampling_prob := by linarith
    have hexp : 1 - M.sampling_prob < Real.exp (-L) := by
      calc 1 - M.sampling_prob = Real.exp (Real.log (1 - M.sampling_prob)) :=
            (Real.exp_log h1q).symm
        _ < Real.exp (-L) := Real.exp_lt_exp.mpr (by linarith)
    have harg : 1 / M.sampling_prob * Real.exp (-L) + (1 - 1 / M.sampling_prob) =
        1 + (Real.exp (-L) - 1) / M.sampling_prob := by ring
    have hpos : 0 < 1 + (Real.exp (-L) - 1) / M.sampling_prob := by
      have h2 : (-1 : ℝ) < (Real.exp (-L) - 1) / M.sampling_prob := by
        rw [lt_div_iff hq0]
        nlinarith
      linarith
    rw [AdditiveNoisePrivacyLoss.inversePrivacyLoss, if_neg (ne_of_lt hq1), hadj]
    rw [if_neg hclose, if_neg (not_lt.mpr hlt.le)]
    rw [show ((-L : ℝ) : EReal) = ((-L : ℝ) : EReal) from rfl, logATimesExpBPlusC_coe,
      harg, if_neg (not_le.mpr hpos), ← EReal.coe_neg]
  · intro hq1 hadj hclose
    rw [AdditiveNoisePrivacyLoss.inversePrivacyLoss, if_neg (ne_of_lt hq1), hadj]
    rw [if_pos hclose]
  · intro hq1 hadj hclose hlt
    rw [AdditiveNoisePrivacyLoss.inversePrivacyLoss, if_neg (ne_of_lt hq1), hadj]
    rw [if_neg hclose, if_pos hlt.le]
  · intro hq1 hadj hclose hgt
    have h1q : (0 : ℝ) < 1 - M.sampling_prob := by linarith
    have hexp : 1 - M.sampling_prob < Real.exp L := by
      calc 1 - M.sampling_prob = Real.exp (Real.log (1 - M.sampling_prob)) :=
            (Real.exp_log h1q).symm
        _ < Real.exp L := Real.exp_lt_exp.mpr (by linarith)
    have harg : 1 / M.sampling_prob * Real.exp L + (1 - 1 / M.sampling_prob) =
        1 + (Real.exp L - 1) / M.sampling_prob := by ring
    have hpos : 0 < 1 + (Real.exp L - 1) / M.sampling_prob := by
      have h2 : (-1 : ℝ) < (Real.exp L - 1) / M.sampling_prob := by
        rw [lt_div_iff hq0]
        nlinarith
      linarith
    rw [AdditiveNoisePrivacyLoss.inversePrivacyLoss, if_neg (ne_of_lt hq1), hadj]
    rw [if_neg hclose, if_neg (not_le.mpr hgt)]
    rw [show logATimesExpBPlusC (1 / M.sampling_prob) ((L : ℝ) : EReal)
        (1 - 1 / M.sampling_prob) =
        ((Real.log (1 + (Real.exp L - 1) / M.sampling_prob) : ℝ) : EReal) by
      rw [logATimesExpBPlusC_coe, harg, if_neg (not_le.mpr hpos)]]

/-- C3 witness: the Laplace instance with `q = 1/2`, ADD adjacency,
queried exactly at the boundary `-log(1 - 1/2)` (trivially within
tolerance of itself) uses the mechanism inverse at `+inf`. -/
theorem C3_witness :
    (0 : ℝ) < 1 / 2 ∧
    (laplacePL 1 1 (1 / 2) .ADD).inversePrivacyLoss (-Real.log (1 - 1 / 2)) =
      some (laplaceInvWos 1 1 .ADD ⊤) := by
  refine ⟨by norm_num, ?_⟩
  exact (C3_inverse_privacy_loss_policy (laplacePL 1 1 (1 / 2) .ADD)
    (-Real.log (1 - 1 / 2)) (by norm_num : (0 : ℝ) < 1 / 2)).2.1
    (by norm_num : (1 / 2 : ℝ) < 1) rfl (isclose_self _)

lemma isIntR_add_int (x : ℝ) (s : ℤ) : isIntR (x + (s : ℝ)) ↔ isIntR x := by
  constructor
  · rintro ⟨n, hn⟩
    exact ⟨n - s, by push_cast; linarith⟩
  · rintro ⟨n, hn⟩
    exact ⟨n + s, by push_cast; linarith⟩

/-- C8: the discrete mechanisms raise (`none`) from
`privacy_loss_without_subsampling` at every non-integer point, and the
discrete Gaussian additionally raises at every point outside the valid
truncated support (`[-B, B + s]` in ADD coordinates, equivalently
`[-B - s, B]` for REMOVE). -/
theorem C8_discrete_loss_undefined (a sigma : ℝ) (s B : ℤ)
    (adj : AdjacencyType) (x : ℝ) :
    (¬ isIntR x → dlapPlws a s adj x = none) ∧
    (¬ isIntR x → dgPlws sigma B s adj x = none) ∧
    (x < -(B : ℝ) → dgPlws sigma B s .ADD x = none) ∧
    (x > (B : ℝ) + (s : ℝ) → dgPlws sigma B s .ADD x = none) ∧
    (x + (s : ℝ) < -(B : ℝ) → dgPlws sigma B s .REMOVE x = none) ∧
    (x + (s : ℝ) > (B : ℝ) + (s : ℝ) → dgPlws sigma B s .REMOVE x = none) := by
  refine ⟨?_, ?_, ?_, ?_, ?_, ?_⟩
  · intro h
    rw [dlapPlws.eq_def, if_neg h]
  · intro h
    cases adj
    · rw [dgPlws, dgPlwsAdd, if_pos (Or.inl h)]
    · rw [dgPlws, dgPlwsAdd,
        if_pos (Or.inl (fun hc => h ((isIntR_add_int x s).mp hc)))]
  · intro h
    rw [dgPlws, dgPlwsAdd, if_pos (Or.inr (Or.inl h))]
  · intro h
    rw [dgPlws, dgPlwsAdd, if_pos (Or.inr (Or.inr h))]
  · intro h
    rw [dgPlws, dgPlwsAdd, if_pos (Or.inr (Or.inl h))]
  · intro h
    rw [dgPlws, dgPlwsAdd, if_pos (Or.inr (Or.inr h))]

/-- C8 witness: at the non-integer point `x = 0.5` both discrete
mechanisms raise, and the discrete Gaussian also raises at the integer
point `x = 15` outside the truncated support for `B = 12`, `s = 1`. -/
theorem C8_witness :
    ¬ isIntR (0.5 : ℝ) ∧
    dlapPlws 1 1 .REMOVE (0.5 : ℝ) = none ∧
    dgPlws 1 12 1 .REMOVE (0.5 : ℝ) = none ∧
    dgPlws 1 12 1 .ADD (15 : ℝ) = none := by
  have hni : ¬ isIntR (0.5 : ℝ) := by
    rintro ⟨n, hn⟩
    have h2 : ((2 * n : ℤ) : ℝ) = ((1 : ℤ) : ℝ) := by push_cast; linarith
    have := Int.cast_injective h2
    omega
  refine ⟨hni, ?_, ?_, ?_⟩
  · exact (C8_discrete_loss_undefined 1 1 1 12 .REMOVE 0.5).1 hni
  · exact (C8_discrete_loss_undefined 1 1 1 12 .REMOVE 0.5).2.1 hni
  · exact (C8_discrete_loss_undefined 1 1 1 12 .ADD 15).2.2.2.1 (by norm_num)

/-- C1: `get_delta_for_epsilon` with `q < 1` returns exactly 0 under ADD
once `eps >= -log(1-q)`, exactly `1 - exp eps` under REMOVE once
`eps <= log(1-q)`, and in every other case (including every `eps` when
`q = 1`) evaluates the cutoff formula
`mu_upper_cdf x* - exp (eps + mu_lower_log_cdf x*)` at
`x* = inverse_privacy_loss eps`, clipped into `[0, 1]`. -/
theorem C1_get_delta_for_epsilon_branches (M : AdditiveNoisePrivacyLoss)
    (eps : ℝ) (hq0 : 0 < M.sampling_prob) :
    (M.sampling_prob < 1 → M.adjacency_type = .ADD →
      -Real.log (1 - M.sampling_prob) ≤ eps →
      M.getDeltaForEpsilon eps = some 0) ∧
    (M.sampling_prob < 1 → M.adjacency_type = .REMOVE →
      eps ≤ Real.log (1 - M.sampling_prob) →
      M.getDeltaForEpsilon eps = some (1 - Real.exp eps)) ∧
    ((M.sampling_prob = 1 ∨
      (M.adjacency_type = .ADD ∧ eps < -Real.log (1 - M.sampling_prob)) ∨
      (M.adjacency_type = .REMOVE ∧ eps > Real.log (1 - M.sampling_prob))) →
      M.getDeltaForEpsilon eps = (M.inversePrivacyLoss eps).map fun x =>
        clip01 ((M.muUpperCdf x : EReal) -
          ((eexpNN ((eps : EReal) + M.muLowerLogCdf x) : ENNReal) : EReal))) := by
  refine ⟨?_, ?_, ?_⟩
  · intro hq1 hadj h
    rw [AdditiveNoisePrivacyLoss.getDeltaForEpsilon, if_neg (ne_of_lt hq1), hadj]
    rw [if_neg (not_lt.mpr h), clip01_coe le_rfl zero_le_one]
  · intro hq1 hadj h
    have h1q : (0 : ℝ) < 1 - M.sampling_prob := by linarith
    have hexp : Real.exp eps ≤ 1 - M.sampling_prob := by
      calc Real.exp eps ≤ Real.exp (Real.log (1 - M.sampling_prob)) :=
            Real.exp_le_exp.mpr h
        _ = 1 - M.sampling_prob := Real.exp_log h1q
    have hc : clip01 ((1 - Real.exp eps : ℝ) : EReal) = 1 - Real.exp eps :=
      clip01_coe (by linarith) (by have := Real.exp_pos eps; linarith)
    rw [AdditiveNoisePrivacyLoss.getDeltaForEpsilon, if_neg (ne_of_lt hq1), hadj]
    rw [if_neg (not_lt.mpr h), hc]
  · rintro (hq | ⟨hadj, h⟩ | ⟨hadj, h⟩)
    · rw [AdditiveNoisePrivacyLoss.getDeltaForEpsilon, if_pos hq,
        AdditiveNoisePrivacyLoss.deltaViaInverse]
    · by_cases hq : M.sampling_prob = 1
      · rw [AdditiveNoisePrivacyLoss.getDeltaForEpsilon, if_pos hq,
          AdditiveNoisePrivacyLoss.deltaViaInverse]
      · rw [AdditiveNoisePrivacyLoss.getDeltaForEpsilon, if_neg hq, hadj,
          if_pos h, AdditiveNoisePrivacyLoss.deltaViaInverse]
    · by_cases hq : M.sampling_prob = 1
      · rw [AdditiveNoisePrivacyLoss.getDeltaForEpsilon, if_pos hq,
          AdditiveNoisePrivacyLoss.deltaViaInverse]
      · rw [AdditiveNoisePrivacyLoss.getDeltaForEpsilon, if_neg hq, hadj,
          if_pos h, AdditiveNoisePrivacyLoss.deltaViaInverse]

/-- C1 witness: for the Laplace instance with `q = 1/2` and ADD adjacency
the divergence at `eps = 1 >= -log(1 - 1/2) = log 2` is exactly 0. -/
theorem C1_witness :
    (0 : ℝ) < 1 / 2 ∧ (1 / 2 : ℝ) < 1 ∧
      -Real.log (1 - 1 / 2) ≤ (1 : ℝ) ∧
      (laplacePL 1 1 (1 / 2) .ADD).getDeltaForEpsilon 1 = some 0 := by
  have hlog : -Real.log (1 - 1 / 2 : ℝ) ≤ (1 : ℝ) := by
    rw [show (1 - 1 / 2 : ℝ) = 2⁻¹ by norm_num, Real.log_inv, neg_neg]
    have := Real.log_two_lt_d9
    linarith
  exact ⟨by norm_num, by norm_num, hlog,
    (C1_get_delta_for_epsilon_branches (laplacePL 1 1 (1 / 2) .ADD) 1
      (by norm_num : (0 : ℝ) < 1 / 2)).1 (by norm_num : (1 / 2 : ℝ) < 1) rfl hlog⟩

lemma ereal_sub_add_cancel (x : EReal) (s : ℝ) : (x - (s : EReal)) + (s : EReal) = x := by
  cases x with
  | h_bot => rw [EReal.bot_sub, EReal.bot_add]
  | h_top => rw [EReal.top_sub_coe, EReal.top_add_coe]
  | h_real r => norm_cast; ring

/-- With `q = 1`, the generic hockey-stick computation gives the same
value for an ADD instance and a REMOVE instance that share the noise
primitives, provided the REMOVE inverse is the ADD inverse shifted left
by the sensitivity. -/
lemma getDelta_add_remove_q1 (s : ℝ) (ncdf : EReal → ℝ) (nlcdf : EReal → EReal)
    (plwsA plwsR : ℝ → Option EReal) (invA invR : EReal → EReal)
    (hinv : ∀ pl : EReal, invR pl = invA pl - (s : EReal)) (eps : ℝ) :
    AdditiveNoisePrivacyLoss.getDeltaForEpsilon
      ⟨s, 1, .ADD, ncdf, nlcdf, plwsA, invA⟩ eps =
    AdditiveNoisePrivacyLoss.getDeltaForEpsilon
      ⟨s, 1, .REMOVE, ncdf, nlcdf, plwsR, invR⟩ eps := by
  rw [AdditiveNoisePrivacyLoss.getDeltaForEpsilon,
    AdditiveNoisePrivacyLoss.getDeltaForEpsilon, if_pos rfl, if_pos rfl,
    AdditiveNoisePrivacyLoss.deltaViaInverse,
    AdditiveNoisePrivacyLoss.deltaViaInverse,
    AdditiveNoisePrivacyLoss.inversePrivacyLoss,
    AdditiveNoisePrivacyLoss.inversePrivacyLoss, if_pos rfl, if_pos rfl]
  simp only [Option.map_some', hinv, AdditiveNoisePrivacyLoss.muUpperCdf,
    AdditiveNoisePrivacyLoss.muLowerLogCdf, ereal_sub_add_cancel, if_true,
    eq_self_iff_true]

lemma laplaceInvWos_remove_shift (b s : ℝ) (pl : EReal) :
    laplaceInvWos b s .REMOVE pl = laplaceInvWos b s .ADD pl - (s : EReal) := by
  cases pl with
  | h_bot => exact (EReal.top_sub_coe s).symm
  | h_top => exact (EReal.bot_sub (s : EReal)).symm
  | h_real r =>
    rw [laplaceInvWos_coe, laplaceInvWos_coe]
    by_cases h1 : r * b > s
    · rw [if_pos h1, if_pos h1, EReal.bot_sub]
    · rw [if_neg h1, if_neg h1]
      by_cases h2 : r * b ≤ -s
      · rw [if_pos h2, if_pos h2, EReal.top_sub_coe]
      · rw [if_neg h2, if_neg h2]
        rw [← EReal.coe_sub, EReal.coe_eq_coe_iff]
        ring

lemma gaussInvWos_remove_shift (sigma s : ℝ) (pl : EReal) :
    gaussInvWos sigma s .REMOVE pl = gaussInvWos sigma s .ADD pl - (s : EReal) := by
  cases pl with
  | h_bot => exact (EReal.top_sub_coe s).symm
  | h_top => exact (EReal.bot_sub (s : EReal)).symm
  | h_real r =>
    show ((-(0.5 * s) - r * sigma ^ 2 / s : ℝ) : EReal) =
      ((0.5 * s - r * sigma ^ 2 / s : ℝ) : EReal) - (s : EReal)
    rw [← EReal.coe_sub, EReal.coe_eq_coe_iff]
    ring

lemma dlapInvWos_remove_shift (a : ℝ) (s : ℤ) (pl : EReal) :
    dlapInvWos a s .REMOVE pl = dlapInvWos a s .ADD pl - ((s : ℝ) : EReal) := by
  cases pl with
  | h_bot => exact (EReal.top_sub_coe (s : ℝ)).symm
  | h_top => exact (EReal.bot_sub ((s : ℝ) : EReal)).symm
  | h_real r =>
    show (if r / a > (s : ℝ) then (⊥ : EReal)
        else if r / a ≤ -(s : ℝ) then ⊤
        else (((⌊0.5 * (-(s : ℝ) - r / a)⌋ : ℤ) : ℝ) : EReal)) =
      (if r / a > (s : ℝ) then (⊥ : EReal)
        else if r / a ≤ -(s : ℝ) then ⊤
        else (((⌊0.5 * ((s : ℝ) - r / a)⌋ : ℤ) : ℝ) : EReal)) - ((s : ℝ) : EReal)
    by_cases h1 : r / a > (s : ℝ)
    · rw [if_pos h1, if_pos h1, EReal.bot_sub]
    · rw [if_neg h1, if_neg h1]
      by_cases h2 : r / a ≤ -(s : ℝ)
      · rw [if_pos h2, if_pos h2, EReal.top_sub_coe]
      · rw [if_neg h2, if_neg h2]
        rw [show (0.5 * (-(s : ℝ) - r / a)) = 0.5 * ((s : ℝ) - r / a) - (s : ℤ) by
          ring]
        rw [Int.floor_sub_int]
        norm_cast

lemma dgInvWos_remove_shift (sigma : ℝ) (B s : ℤ) (pl : EReal) :
    dgInvWos sigma B s .REMOVE pl = dgInvWos sigma B s .ADD pl - ((s : ℝ) : EReal) :=
  rfl

/-- C5: with `sampling_prob = 1` and the same noise parameters, the ADD
and REMOVE instances of each of the four mechanisms return the same value
of `get_delta_for_epsilon` at every epsilon. -/
theorem C5_add_remove_same_delta_q1 (b sigma_l a sigma_g : ℝ) (s : ℝ)
    (sd sg B : ℤ) (eps : ℝ) :
    (laplacePL b s 1 .ADD).getDeltaForEpsilon eps =
      (laplacePL b s 1 .REMOVE).getDeltaForEpsilon eps ∧
    (gaussianPL sigma_l s 1 .ADD).getDeltaForEpsilon eps =
      (gaussianPL sigma_l s 1 .REMOVE).getDeltaForEpsilon eps ∧
    (dlapPL a sd 1 .ADD).getDeltaForEpsilon eps =
      (dlapPL a sd 1 .REMOVE).getDeltaForEpsilon eps ∧
    (dgPL sigma_g B sg 1 .ADD).getDeltaForEpsilon eps =
      (dgPL sigma_g B sg 1 .REMOVE).getDeltaForEpsilon eps := by
  refine ⟨?_, ?_, ?_, ?_⟩
  · exact getDelta_add_remove_q1 s (laplaceNoiseCdf b) (laplaceNoiseLogCdf b)
      (laplacePlws b s .ADD) (laplacePlws b s .REMOVE)
      (laplaceInvWos b s .ADD) (laplaceInvWos b s .REMOVE)
      (laplaceInvWos_remove_shift b s) eps
  · exact getDelta_add_remove_q1 s (gaussNoiseCdf sigma_l) (gaussNoiseLogCdf sigma_l)
      (gaussPlws sigma_l s .ADD) (gaussPlws sigma_l s .REMOVE)
      (gaussInvWos sigma_l s .ADD) (gaussInvWos sigma_l s .REMOVE)
      (gaussInvWos_remove_shift sigma_l s) eps
  · exact getDelta_add_remove_q1 (sd : ℝ) (dlapNoiseCdf a) (dlapNoiseLogCdf a)
      (dlapPlws a sd .ADD) (dlapPlws a sd .REMOVE)
      (dlapInvWos a sd .ADD) (dlapInvWos a sd .REMOVE)
      (dlapInvWos_remove_shift a sd) eps
  · exact getDelta_add_remove_q1 (sg : ℝ) (dgNoiseCdf sigma_g B)
      (dgNoiseLogCdf sigma_g B)
      (dgPlws sigma_g B sg .ADD) (dgPlws sigma_g B sg .REMOVE)
      (dgInvWos sigma_g B sg .ADD) (dgInvWos sigma_g B sg .REMOVE)
      (dgInvWos_remove_shift sigma_g B sg) eps

/-! ### Lemmas about the discrete Gaussian array construction -/

lemma accumFrom_length {α : Type} (f : α → α → α) (acc : α) (l : List α) :
    (accumFrom f acc l).length = l.length := by
  induction l generalizing acc with
  | nil => rfl
  | cons b t ih => simp [accumFrom, ih]

lemma accumFrom_ne_nil {α : Type} (f : α → α → α) (acc : α) (l : List α)
    (h : l ≠ []) : accumFrom f acc l ≠ [] := by
  cases l with
  | nil => exact absurd rfl h
  | cons b t => simp [accumFrom]

lemma npAccumulate_length {α : Type} (f : α → α → α) (l : List α) :
    (npAccumulate f l).length = l.length := by
  cases l with
  | nil => rfl
  | cons a t => simp [npAccumulate, accumFrom_length]

lemma getLast?_cons_of_ne_nil {α : Type} (a : α) (l : List α) (h : l ≠ []) :
    (a :: l).getLast? = l.getLast? := by
  cases l with
  | nil => exact absurd rfl h
  | cons b t => exact List.getLast?_cons_cons

lemma accumFrom_getLast_cons {α : Type} (f : α → α → α) (b : α) (t : List α) :
    ∀ acc, (accumFrom f acc (b :: t)).getLast? = some ((b :: t).foldl f acc) := by
  induction t generalizing b with
  | nil => intro acc; rfl
  | cons c t2 ih =>
    intro acc
    rw [show accumFrom f acc (b :: c :: t2) =
      f acc b :: accumFrom f (f acc b) (c :: t2) from rfl]
    rw [getLast?_cons_of_ne_nil _ _ (accumFrom_ne_nil _ _ _ (by simp))]
    rw [ih c (f acc b)]
    rfl

lemma accumFrom_getLast {α : Type} (f : α → α → α) (l : List α) (h : l ≠ [])
    (acc : α) : (accumFrom f acc l).getLast? = some (l.foldl f acc) := by
  cases l with
  | nil => exact absurd rfl h
  | cons b t => exact accumFrom_getLast_cons f b t acc

lemma elogNN_zero : elogNN 0 = ⊥ := by simp [elogNN]

lemma elogNN_ofReal_pos {m : ℝ} (hm : 0 < m) :
    elogNN (ENNReal.ofReal m) = ((Real.log m : ℝ) : EReal) := by
  rw [elogNN, if_neg (by rw [ENNReal.ofReal_eq_zero]; linarith),
    if_neg ENNReal.ofReal_ne_top, ENNReal.toReal_ofReal hm.le]

lemma eexpNN_elogNN {u : ENNReal} (hu : u ≠ ⊤) : eexpNN (elogNN u) = u := by
  by_cases h0 : u = 0
  · subst h0
    rw [elogNN_zero]
    rfl
  · rw [elogNN, if_neg h0, if_neg hu, eexpNN_coe,
      Real.exp_log (ENNReal.toReal_pos h0 hu), ENNReal.ofReal_toReal hu]

lemma logaddexpE_elogNN_coe {u : ENNReal} (hu : u ≠ ⊤) (r : ℝ) :
    logaddexpE (elogNN u) ((r : ℝ) : EReal) =
      elogNN (u + ENNReal.ofReal (Real.exp r)) := by
  rw [logaddexpE, eexpNN_elogNN hu, eexpNN_coe]

lemma foldl_logaddexpE (l : List ℝ) :
    ∀ (u : ENNReal), u ≠ ⊤ →
      List.foldl logaddexpE (elogNN u) (l.map (fun r : ℝ => ((r : ℝ) : EReal))) =
        elogNN (u + ENNReal.ofReal ((l.map Real.exp).sum)) := by
  induction l with
  | nil =>
    intro u hu
    simp
  | cons b t ih =>
    intro u hu
    have hs : (0 : ℝ) ≤ (t.map Real.exp).sum := by
      refine List.sum_nonneg ?_
      intro x hx
      obtain ⟨r, _, hr⟩ := List.mem_map.mp hx
      exact hr ▸ (Real.exp_pos r).le
    rw [List.map_cons, List.foldl_cons, logaddexpE_elogNN_coe hu,
      ih _ (ENNReal.add_ne_top.mpr ⟨hu, ENNReal.ofReal_ne_top⟩),
      List.map_cons, List.sum_cons,
      ENNReal.ofReal_add (Real.exp_pos b).le hs, ← add_assoc]

/-- The list of un-normalized log-PMF exponents (excluding the sentinel),
as real numbers. -/
noncomputable def dgExponents (sigma : ℝ) (B : ℤ) : List ℝ :=
  (List.range (2 * B + 1).toNat).map
    (fun (i : ℕ) => (-0.5 * (((i : ℤ) - B : ℤ) : ℝ) ^ 2 / sigma ^ 2 : ℝ))

/-- Total un-normalized mass of the truncated discrete Gaussian. -/
noncomputable def dgMass (sigma : ℝ) (B : ℤ) : ℝ :=
  ((dgExponents sigma B).map Real.exp).sum

lemma dgExponents_ne_nil (sigma : ℝ) (B : ℤ) (hB : 0 ≤ B) :
    dgExponents sigma B ≠ [] := by
  rw [dgExponents, ne_eq, List.map_eq_nil, List.range_eq_nil]
  omega

lemma dgMass_pos (sigma : ℝ) (B : ℤ) (hB : 0 ≤ B) : 0 < dgMass sigma B := by
  refine List.sum_pos _ ?_ ?_
  · intro x hx
    obtain ⟨r, _, hr⟩ := List.mem_map.mp hx
    exact hr ▸ Real.exp_pos r
  · rw [ne_eq, List.map_eq_nil]
    exact dgExponents_ne_nil sigma B hB

lemma dgLogPmfRaw_eq (sigma : ℝ) (B : ℤ) :
    dgLogPmfRaw sigma B =
      ⊥ :: (dgExponents sigma B).map (fun r : ℝ => ((r : ℝ) : EReal)) := by
  rw [dgLogPmfRaw, dgExponents, List.map_map]
  rfl

lemma dgLogCdfRaw_getLast (sigma : ℝ) (B : ℤ) (hB : 0 ≤ B) :
    (dgLogCdfRaw sigma B).getLast? =
      some ((Real.log (dgMass sigma B) : ℝ) : EReal) := by
  have hmap : (dgExponents sigma B).map (fun r : ℝ => ((r : ℝ) : EReal)) ≠ [] := by
    rw [ne_eq, List.map_eq_nil]
    exact dgExponents_ne_nil sigma B hB
  rw [dgLogCdfRaw, dgLogPmfRaw_eq, npAccumulate,
    getLast?_cons_of_ne_nil _ _ (accumFrom_ne_nil _ _ _ hmap),
    accumFrom_getLast _ _ hmap,
    show (⊥ : EReal) = elogNN 0 from elogNN_zero.symm,
    foldl_logaddexpE _ 0 (by simp), zero_add,
    show (((dgExponents sigma B).map Real.exp).sum) = dgMass sigma B from rfl,
    elogNN_ofReal_pos (dgMass_pos sigma B hB)]

lemma dgLogCdfRaw_length (sigma : ℝ) (B : ℤ) :
    (dgLogCdfRaw sigma B).length = (2 * B + 1).toNat + 1 := by
  rw [dgLogCdfRaw, npAccumulate_length, dgLogPmfRaw]
  simp

lemma dgLogPmfRaw_length (sigma : ℝ) (B : ℤ) :
    (dgLogPmfRaw sigma B).length = (2 * B + 1).toNat + 1 := by
  rw [dgLogPmfRaw]
  simp

lemma dgLogCdf_getLast (sigma : ℝ) (B : ℤ) (hB : 0 ≤ B) :
    (dgLogCdf sigma B).getLast? = some 0 := by
  rw [dgLogCdf]
  simp only [List.getLastD_eq_getLast?, dgLogCdfRaw_getLast sigma B hB,
    Option.getD_some, List.getLast?_map, Option.map_some']
  rw [← EReal.coe_sub, sub_self]
  rfl

lemma dgCdf_getLast (sigma : ℝ) (B : ℤ) (hB : 0 ≤ B) :
    (dgCdf sigma B).getLast? = some 1 := by
  rw [dgCdf, List.getLast?_map, dgLogCdf_getLast sigma B hB, Option.map_some']
  rw [show eexpE 0 = 1 by
    rw [show (0 : EReal) = ((0 : ℝ) : EReal) from rfl, eexpE, eexpNN_coe,
      Real.exp_zero, ENNReal.ofReal_one, ENNReal.one_toReal]]

/-- C9: for the discrete Gaussian with `sigma > 0`, the unspecified
truncation bound is set to `ceil (11.6 * sigma)`; the log-PMF and log-CDF
arrays have exactly `2 * B + 2` entries; the first log-PMF entry is
`-inf`; and after normalization the last log-CDF entry is exactly 0
(equivalently, the last linear-scale CDF entry is exactly 1). -/
theorem C9_dgauss_construction (sigma : ℝ) (hs : 0 < sigma) :
    dgTruncationBound sigma none = ⌈(11.6 : ℝ) * sigma⌉ ∧
    (dgLogPmf sigma ⌈(11.6 : ℝ) * sigma⌉).length =
      (2 * ⌈(11.6 : ℝ) * sigma⌉ + 2).toNat ∧
    (dgLogCdf sigma ⌈(11.6 : ℝ) * sigma⌉).length =
      (2 * ⌈(11.6 : ℝ) * sigma⌉ + 2).toNat ∧
    (dgLogPmf sigma ⌈(11.6 : ℝ) * sigma⌉).head? = some ⊥ ∧
    (dgLogCdf sigma ⌈(11.6 : ℝ) * sigma⌉).getLast? = some 0 ∧
    (dgCdf sigma ⌈(11.6 : ℝ) * sigma⌉).getLast? = some 1 := by
  have hB : 0 ≤ ⌈(11.6 : ℝ) * sigma⌉ := by
    refine le_of_lt (Int.ceil_pos.mpr ?_)
    nlinarith
  refine ⟨rfl, ?_, ?_, ?_, dgLogCdf_getLast _ _ hB, dgCdf_getLast _ _ hB⟩
  · rw [dgLogPmf, List.length_map, dgLogPmfRaw_length]
    omega
  · rw [dgLogCdf, List.length_map, dgLogCdfRaw_length]
    omega
  · rw [dgLogPmf, List.head?_map, dgLogPmfRaw, List.head?_cons, Option.map_some']
    rw [EReal.bot_sub]

/-- C9 witness: the construction facts at the concrete parameter
`sigma = 1` (where the auto-derived truncation bound is 12 and the arrays
have 26 entries). -/
theorem C9_witness :
    dgTruncationBound 1 none = 12 ∧
    (dgLogPmf 1 12).length = 26 ∧
    (dgLogCdf 1 12).getLast? = some 0 ∧
    (dgCdf 1 12).getLast? = some 1 := by
  have h12 : (⌈(11.6 : ℝ) * 1⌉ : ℤ) = 12 := by
    rw [mul_one]
    rw [show (11.6 : ℝ) = (58 : ℝ) / 5 by norm_num, Int.ceil_eq_iff]
    norm_num
  have h := C9_dgauss_construction 1 one_pos
  rw [h12] at h
  refine ⟨h.1, ?_, h.2.2.2.2.1, h.2.2.2.2.2⟩
  have := h.2.1
  rw [this]
  rfl

/-! ### Lemmas for the tail-mass invariant -/

@[simp] lemma gaussNoiseCdf_coe (sigma x : ℝ) :
    gaussNoiseCdf sigma ((x : ℝ) : EReal) = stdNormalCdf (x / sigma) := rfl

@[simp] lemma dgIndex_coe (B : ℤ) (x : ℝ) :
    dgIndex B ((x : ℝ) : EReal) =
      (⌊min (max x (-(B : ℝ) - 1)) (B : ℝ)⌋ + B + 1).toNat := rfl

/-- The standard normal CDF is strictly below 1 at every real point:
the Gaussian measure of every upper tail is positive. -/
lemma stdNormalCdf_lt_one (x : ℝ) : stdNormalCdf x < 1 := by
  rw [stdNormalCdf]
  have hne : ProbabilityTheory.gaussianReal 0 1 (Set.Iic x) ≠ ⊤ :=
    MeasureTheory.measure_ne_top _ _
  have hlt : ProbabilityTheory.gaussianReal 0 1 (Set.Iic x) < 1 := by
    rcases lt_or_eq_of_le (@MeasureTheory.prob_le_one ℝ _
      (ProbabilityTheory.gaussianReal 0 1) _ (Set.Iic x)) with h | h
    · exact h
    · exfalso
      have hcompl : ProbabilityTheory.gaussianReal 0 1 (Set.Ioi x) = 0 := by
        rw [← Set.compl_Iic, MeasureTheory.measure_compl measurableSet_Iic hne,
          h, MeasureTheory.measure_univ, tsub_self]
      have hvol := (ProbabilityTheory.gaussianReal_absolutelyContinuous' 0
        one_ne_zero) hcompl
      rw [Real.volume_Ioi] at hvol
      exact ENNReal.top_ne_zero hvol
  have h := (ENNReal.toReal_lt_toReal hne (by simp : (1 : ENNReal) ≠ ⊤)).mpr hlt
  rwa [ENNReal.one_toReal] at h

lemma dgCdf_length (sigma : ℝ) (B : ℤ) :
    (dgCdf sigma B).length = (2 * B + 1).toNat + 1 := by
  rw [dgCdf, List.length_map, dgLogCdf, List.length_map, dgLogCdfRaw_length]

lemma dgCdf_getD_last (sigma : ℝ) (B : ℤ) (hB : 0 ≤ B) :
    (dgCdf sigma B).getD ((2 * B + 1).toNat) 0 = 1 := by
  have hlast := dgCdf_getLast sigma B hB
  rw [List.getLast?_eq_getElem?, dgCdf_length, Nat.add_sub_cancel] at hlast
  rw [List.getD_eq_getElem?_getD, hlast, Option.getD_some]

/-- Lookups at or above the truncation bound hit the last entry of the
CDF array, whose value is exactly 1. -/
lemma dgNoiseCdf_of_ge (sigma : ℝ) (B : ℤ) (hB : 0 ≤ B) (r : ℝ)
    (hr : (B : ℝ) ≤ r) : dgNoiseCdf sigma B ((r : ℝ) : EReal) = 1 := by
  have hmin : min (max r (-(B : ℝ) - 1)) (B : ℝ) = (B : ℝ) :=
    min_eq_right (le_trans hr (le_max_left _ _))
  rw [dgNoiseCdf, dgIndex_coe, hmin, Int.floor_intCast,
    show (B + B + 1).toNat = (2 * B + 1).toNat by omega,
    dgCdf_getD_last sigma B hB]

/-- C6 counterexample: for the Gaussian mechanism with `sigma = 1`,
`s = 1`, `q = 1`, `log_mass_truncation_bound = -50`, REMOVE adjacency and
`pessimistic_estimate = False`, the sum of the tail masses plus the
mu_upper mass inside the truncation interval is strictly below 1: the
optimistic tail drops the mass above the upper truncation point. -/
theorem C6_counterexample :
    tailSum (gaussianTail 1 1 1 (-50) false .REMOVE) +
      ((gaussianPL 1 1 1 .REMOVE).muUpperCdf
        (((gaussianTail 1 1 1 (-50) false .REMOVE).upper_x_truncation : ℝ) : EReal) -
       (gaussianPL 1 1 1 .REMOVE).muUpperCdf
        (((gaussianTail 1 1 1 (-50) false .REMOVE).lower_x_truncation : ℝ) : EReal)) < 1 := by
  simp only [gaussianTail, tailSum, Bool.false_eq_true, if_false,
    List.map_cons, List.map_nil, List.sum_cons, List.sum_nil]
  rw [show ∀ a b : ℝ, a + 0 + (b - a) = b from fun a b => by ring]
  simp only [AdditiveNoisePrivacyLoss.muUpperCdf, gaussianPL, if_pos rfl]
  rw [← EReal.coe_add, gaussNoiseCdf_coe]
  exact stdNormalCdf_lt_one _

/-- C6 (amended): for every Laplace, Gaussian-with-pessimistic-estimate,
discrete Laplace and discrete Gaussian instance, the sum of the values of
the tail probability mass function plus the probability mass of mu_upper
inside `[lower_x_truncation, upper_x_truncation]` equals the full
probability space (1) of mu_upper; for the Gaussian with
`pessimistic_estimate = False` the same sum instead equals
`mu_upper_cdf upper_x_truncation`, falling short of 1 by the discarded
upper-tail mass. -/
theorem C6_tail_mass_accounting (b s q bound : ℝ) (adj : AdjacencyType)
    (al : ℝ) (sd : ℤ) (qd : ℝ) (sigma_g : ℝ) (B sg : ℤ) (qg : ℝ)
    (adjg : AdjacencyType) (hB : 0 ≤ B) (hsg : 0 ≤ sg) :
    (tailSum (laplaceTail b s q adj) +
      ((laplacePL b s q adj).muUpperCdf
        (((laplaceTail b s q adj).upper_x_truncation : ℝ) : EReal) -
       (laplacePL b s q adj).muUpperCdf
        (((laplaceTail b s q adj).lower_x_truncation : ℝ) : EReal)) = 1) ∧
    (tailSum (gaussianTail b s q bound true adj) +
      ((gaussianPL b s q adj).muUpperCdf
        (((gaussianTail b s q bound true adj).upper_x_truncation : ℝ) : EReal) -
       (gaussianPL b s q adj).muUpperCdf
        (((gaussianTail b s q bound true adj).lower_x_truncation : ℝ) : EReal)) = 1) ∧
    (tailSum (gaussianTail b s q bound false adj) +
      ((gaussianPL b s q adj).muUpperCdf
        (((gaussianTail b s q bound false adj).upper_x_truncation : ℝ) : EReal) -
       (gaussianPL b s q adj).muUpperCdf
        (((gaussianTail b s q bound false adj).lower_x_truncation : ℝ) : EReal)) =
      (gaussianPL b s q adj).muUpperCdf
        (((gaussianTail b s q bound false adj).upper_x_truncation : ℝ) : EReal)) ∧
    (tailSum (dlapTail al sd qd adj) +
      ((dlapPL al sd qd adj).muUpperCdf
        (((dlapTail al sd qd adj).upper_x_truncation : ℝ) : EReal) -
       (dlapPL al sd qd adj).muUpperCdf
        (((dlapTail al sd qd adj).lower_x_truncation - 1 : ℝ) : EReal)) = 1) ∧
    (tailSum (dgTail sigma_g B sg qg adjg) +
      ((dgPL sigma_g B sg qg adjg).muUpperCdf
        (((dgTail sigma_g B sg qg adjg).upper_x_truncation : ℝ) : EReal) -
       (dgPL sigma_g B sg qg adjg).muUpperCdf
        (((dgTail sigma_g B sg qg adjg).lower_x_truncation - 1 : ℝ) : EReal)) = 1) := by
  refine ⟨?_, ?_, ?_, ?_, ?_⟩
  · cases adj <;>
      · simp only [laplaceTail, tailSum, List.map_cons, List.map_nil,
          List.sum_cons, List.sum_nil]
        ring
  · cases adj <;>
      · simp only [gaussianTail, tailSum, eq_self_iff_true, if_true,
          List.map_cons, List.map_nil, List.sum_cons, List.sum_nil]
        ring
  · cases adj <;>
      · simp only [gaussianTail, tailSum, Bool.false_eq_true, if_false,
          List.map_cons, List.map_nil, List.sum_cons, List.sum_nil]
        ring
  · cases adj <;>
      · simp only [dlapTail, tailSum, List.map_cons, List.map_nil,
          List.sum_cons, List.sum_nil]
        ring
  · have hsgR : (0 : ℝ) ≤ (sg : ℝ) := Int.cast_nonneg.mpr hsg
    cases adjg with
    | ADD =>
      simp only [dgTail, tailSum, dgPL, List.map_cons, List.map_nil,
        List.sum_cons, List.sum_nil, AdditiveNoisePrivacyLoss.muUpperCdf]
      rw [show ∀ a c : ℝ, a + 0 + (c - a) = c from fun a c => by ring]
      exact dgNoiseCdf_of_ge sigma_g B hB _ le_rfl
    | REMOVE =>
      simp only [dgTail, tailSum, dgPL, List.map_cons, List.map_nil,
        List.sum_cons, List.sum_nil, AdditiveNoisePrivacyLoss.muUpperCdf]
      rw [show ∀ a c : ℝ, a + 0 + (c - a) = c from fun a c => by ring]
      by_cases hq : qg = 1
      · rw [if_pos hq, if_pos hq, ← EReal.coe_add,
          show ((B - sg : ℤ) : ℝ) + ((sg : ℤ) : ℝ) = ((B : ℤ) : ℝ) by
            push_cast; ring]
        exact dgNoiseCdf_of_ge sigma_g B hB _ le_rfl
      · rw [if_neg hq, if_neg hq, ← EReal.coe_add,
          dgNoiseCdf_of_ge sigma_g B hB ((B : ℤ) : ℝ) le_rfl,
          dgNoiseCdf_of_ge sigma_g B hB (((B : ℤ) : ℝ) + ((sg : ℤ) : ℝ))
            (by linarith)]
        ring

/-- C6 witness: the accounting identity at a concrete Laplace instance
and a concrete discrete Gaussian instance. -/
theorem C6_witness :
    (tailSum (laplaceTail 1 1 (1 / 2) .ADD) +
      ((laplacePL 1 1 (1 / 2) .ADD).muUpperCdf
        (((laplaceTail 1 1 (1 / 2) .ADD).upper_x_truncation : ℝ) : EReal) -
       (laplacePL 1 1 (1 / 2) .ADD).muUpperCdf
        (((laplaceTail 1 1 (1 / 2) .ADD).lower_x_truncation : ℝ) : EReal)) = 1) ∧
    (tailSum (dgTail 1 12 1 1 .REMOVE) +
      ((dgPL 1 12 1 1 .REMOVE).muUpperCdf
        (((dgTail 1 12 1 1 .REMOVE).upper_x_truncation : ℝ) : EReal) -
       (dgPL 1 12 1 1 .REMOVE).muUpperCdf
        (((dgTail 1 12 1 1 .REMOVE).lower_x_truncation - 1 : ℝ) : EReal)) = 1) := by
  have h := C6_tail_mass_accounting 1 1 (1 / 2) (-50) .ADD 1 1 1 1 12 1 1 .REMOVE
    (by norm_num) (by norm_num)
  exact ⟨h.1, h.2.2.2.2⟩
